import Mathlib

/-!
# Verification of `buffer-transpose` (`src/index.ts`)

Shallow embedding of the buffer-transpose engine: a JS `Buffer`/`Uint8Array`
is modelled as a `List Nat` of byte values, and the four transpose variants
(`transpose1BitAligned`, `transpose1BitGeneric`, `transpose1BitPacked`,
`transpose8Bit`) together with the dispatching `transpose` function are
translated statement by statement from the TypeScript source.

JS semantics captured by the embedding:
* reading `buf[i]` out of range yields `undefined`, which the bitwise
  operators coerce to `0`, so reads use `List.getD` with default `0`;
* writing `buf[i] = v` on a `Uint8Array` stores `v` truncated to a byte
  (`% 256`) when `i` is in range and is silently dropped otherwise;
* `x >> 3` is `x >>> 3` on naturals, `x & 7` is `x &&& 7`,
  `Math.ceil(w / 8)` is `(w + 7) / 8`;
* `Buffer.alloc n` is `List.replicate n 0` (zero-filled);
* `throw new Error msg` is `Except.error msg`.
-/

namespace BufferTranspose

/-- A byte buffer: the JS `Buffer` / `Uint8Array` as a list of byte values. -/
abbrev Buf := List Nat

/-- `buf[i]` in JS: an out-of-range read yields `undefined`, which the bitwise
operators used on every read site coerce to `0`. -/
def getByte (buf : Buf) (i : Nat) : Nat := buf.getD i 0

/-- `output[i] |= 1 << s` on a `Uint8Array`: in range the result is stored
truncated to a byte, out of range the write is dropped. -/
def setBitOr (buf : Buf) (i s : Nat) : Buf :=
  if h : i < buf.length then
    buf.set i ((buf.get ⟨i, h⟩ ||| (1 <<< s)) % 256)
  else buf

/-- `output[i] = v` on a `Uint8Array`: in range `v` is stored truncated to a
byte, out of range the write is dropped. -/
def setByte (buf : Buf) (i v : Nat) : Buf :=
  if i < buf.length then buf.set i (v % 256) else buf

/-- Spec-side bit reader: the bit of `buf` at byte index `i`, bit position `s`
counted from the least significant bit (so MSB-first column `c` of a byte is
`s = 7 - c`). -/
def getBit (buf : Buf) (i s : Nat) : Bool := Nat.testBit (getByte buf i) s

/-- `transpose1BitAligned` (src/index.ts:183-209): optimized 1-bit transpose
for byte-aligned dimensions. -/
def transpose1BitAligned (input : Buf) (width height : Nat) : Buf :=
  let widthBytes := width >>> 3
  let heightBytes := height >>> 3
  let output := List.replicate (width * heightBytes) 0
  (List.range width).foldl (fun out x =>
    let inputByteCol := x >>> 3
    let inputBitShift := 7 - (x &&& 7)
    (List.range height).foldl (fun out y =>
      let inputIndex := y * widthBytes + inputByteCol
      let bit := (getByte input inputIndex >>> inputBitShift) &&& 1
      if bit ≠ 0 then
        let outputRowStart := x * heightBytes
        let outputByteIndex := outputRowStart + (y >>> 3)
        let outputBitShift := 7 - (y &&& 7)
        setBitOr out outputByteIndex outputBitShift
      else out) out) output

/-- `transpose1BitGeneric` (src/index.ts:214-242): generic 1-bit transpose for
any dimensions (byte-aligned rows), with a bounds check on every input read. -/
def transpose1BitGeneric (input : Buf) (width height : Nat) : Buf :=
  let inputStride := (width + 7) / 8
  let outputStride := (height + 7) / 8
  let output := List.replicate (width * outputStride) 0
  (List.range width).foldl (fun out x =>
    let inputByteCol := x >>> 3
    let inputBitShift := 7 - (x &&& 7)
    (List.range height).foldl (fun out y =>
      let inputIndex := y * inputStride + inputByteCol
      if inputIndex < input.length then
        let bit := (getByte input inputIndex >>> inputBitShift) &&& 1
        if bit ≠ 0 then
          let outputRowStart := x * outputStride
          let outputByteIndex := outputRowStart + (y >>> 3)
          let outputBitShift := 7 - (y &&& 7)
          setBitOr out outputByteIndex outputBitShift
        else out
      else out) out) output

/-- `transpose1BitPacked` (src/index.ts:248-281): tightly packed 1-bit
transpose; the loop state is the output buffer paired with the running
output bit cursor `outputBitIndex`. -/
def transpose1BitPacked (input : Buf) (width height : Nat) : Buf :=
  let inputStride := (width + 7) / 8
  let totalOutputBits := width * height
  let outputSizeBytes := (totalOutputBits + 7) / 8
  let output := List.replicate outputSizeBytes 0
  let final := (List.range width).foldl (fun st x =>
    let inputByteCol := x >>> 3
    let inputBitShift := 7 - (x &&& 7)
    (List.range height).foldl (fun st y =>
      let out := st.1
      let outputBitIndex := st.2
      let inputIndex := y * inputStride + inputByteCol
      let out2 :=
        if inputIndex < input.length then
          let bit := (getByte input inputIndex >>> inputBitShift) &&& 1
          if bit ≠ 0 then
            setBitOr out (outputBitIndex >>> 3) (7 - (outputBitIndex &&& 7))
          else out
        else out
      (out2, outputBitIndex + 1)) st) (output, 0)
  final.1

/-- `transpose8Bit` (src/index.ts:286-304): 8-bit transpose, one byte per
element. -/
def transpose8Bit (input : Buf) (width height : Nat) : Buf :=
  let output := List.replicate (width * height) 0
  (List.range width).foldl (fun out x =>
    (List.range height).foldl (fun out y =>
      let inputIndex := y * width + x
      let outputIndex := x * height + y
      setByte out outputIndex (getByte input inputIndex)) out) output

/-- `TransposeOptions` (src/index.ts:127-141). `none` models an omitted
(JS `undefined`) field. -/
structure TransposeOptions where
  bpp : Option Nat
  packed : Option Bool

/-- `options.bpp || 1` (src/index.ts:159): `undefined` and `0` are falsy in
JS, so both fall back to the default `1`. -/
def effectiveBpp (options : TransposeOptions) : Nat :=
  match options.bpp with
  | none => 1
  | some 0 => 1
  | some b => b

/-- `options.packed || false` (src/index.ts:160). -/
def effectivePacked (options : TransposeOptions) : Bool :=
  match options.packed with
  | none => false
  | some p => p

/-- `transpose` (src/index.ts:153-178): the dispatcher. A thrown `Error` is
modelled as `Except.error` carrying the message. -/
def transpose (input : Buf) (width height : Nat)
    (options : TransposeOptions) : Except String Buf :=
  let bpp := effectiveBpp options
  let packed := effectivePacked options
  if bpp = 1 then
    if packed then
      Except.ok (transpose1BitPacked input width height)
    else if width % 8 = 0 ∧ height % 8 = 0 then
      Except.ok (transpose1BitAligned input width height)
    else
      Except.ok (transpose1BitGeneric input width height)
  else if bpp = 8 then
    Except.ok (transpose8Bit input width height)
  else
    Except.error ("Unsupported bpp: " ++ toString bpp ++
      ". Only 1 and 8 are currently supported.")

/-- Every element of the buffer is a byte value. Inputs handed to the engine
are `Uint8Array`s, whose elements are below 256 by construction. -/
def isBytes (buf : Buf) : Prop := ∀ b ∈ buf, b < 256

instance (buf : Buf) : Decidable (isBytes buf) :=
  List.decidableBAll (fun b => b < 256) buf

end BufferTranspose

namespace BufferTranspose

/-! ## Basic facts about the buffer primitives -/

theorem shiftRight3 (x : Nat) : x >>> 3 = x / 8 := by
  rw [Nat.shiftRight_eq_div_pow]

theorem and7 (x : Nat) : x &&& 7 = x % 8 :=
  Nat.and_pow_two_sub_one_eq_mod x 3

theorem shift_and_one_ne_zero (n t : Nat) :
    (n >>> t) &&& 1 ≠ 0 ↔ Nat.testBit n t = true := by
  have h1 : (n >>> t) &&& 1 = (n >>> t) % 2 :=
    Nat.and_pow_two_sub_one_eq_mod (n >>> t) 1
  rw [h1, Nat.testBit_to_div_mod, Nat.shiftRight_eq_div_pow]
  simp only [decide_eq_true_eq]
  omega

theorem length_setBitOr (buf : Buf) (i s : Nat) :
    (setBitOr buf i s).length = buf.length := by
  unfold setBitOr
  split
  · exact List.length_set buf i _
  · rfl

theorem length_setByte (buf : Buf) (i v : Nat) :
    (setByte buf i v).length = buf.length := by
  unfold setByte
  split
  · exact List.length_set buf i _
  · rfl

theorem getBit_replicate (n j t : Nat) :
    getBit (List.replicate n 0) j t = false := by
  unfold getBit getByte
  rw [List.getD_eq_getElem?_getD, List.getElem?_replicate]
  split <;> simp [Nat.zero_testBit]

theorem getD_in_range {buf : Buf} {i : Nat} (h : i < buf.length) :
    buf.getD i 0 = buf.get ⟨i, h⟩ := by
  rw [List.getD_eq_getElem?_getD, List.getElem?_eq_getElem h]
  rfl

theorem getBit_setBitOr (buf : Buf) (i s j t : Nat)
    (hs : s < 8) (ht : t < 8) (hi : i < buf.length) :
    (getBit (setBitOr buf i s) j t = true) ↔
      ((j = i ∧ t = s) ∨ getBit buf j t = true) := by
  unfold setBitOr getBit getByte
  rw [dif_pos hi]
  rw [List.getD_eq_getElem?_getD, List.getElem?_set]
  by_cases hij : i = j
  · subst hij
    rw [if_pos rfl, if_pos hi]
    have h256 : (256 : Nat) = 2 ^ 8 := by norm_num
    have hdt : decide (t < 8) = true := by simp [ht]
    rw [getD_in_range hi, h256]
    simp only [Option.getD_some, Nat.testBit_mod_two_pow, Nat.testBit_or,
      Nat.one_shiftLeft, Nat.testBit_two_pow, hdt, Bool.true_and,
      List.get_eq_getElem, Bool.or_eq_true, decide_eq_true_eq]
    constructor
    · rintro (hb | hst)
      · exact Or.inr hb
      · refine Or.inl ⟨by trivial, hst.symm⟩
    · rintro (⟨-, hst⟩ | hb)
      · exact Or.inr hst.symm
      · exact Or.inl hb
  · rw [if_neg hij, List.getD_eq_getElem?_getD]
    constructor
    · intro hb
      right
      exact hb
    · rintro (⟨hji, -⟩ | hb)
      · exact absurd hji.symm hij
      · exact hb

/-! ## Characterizing folds of conditional bit writes

Each 1-bit variant is a double fold whose inner step either sets one output
bit (via `setBitOr`) or leaves the buffer unchanged.  The lemmas below
characterize every bit of the result of such a fold. -/

theorem length_foldl_bitstep
    (cond : Nat → Prop) [DecidablePred cond] (f g : Nat → Nat)
    (step : Buf → Nat → Buf)
    (hstep : ∀ o k, step o k = if cond k then setBitOr o (f k) (g k) else o)
    (l : List Nat) (out : Buf) :
    (l.foldl step out).length = out.length := by
  induction l generalizing out with
  | nil => rfl
  | cons a l ih =>
      rw [List.foldl_cons, ih, hstep]
      split
      · exact length_setBitOr out (f a) (g a)
      · rfl

theorem getBit_foldl_bitstep
    (cond : Nat → Prop) [DecidablePred cond] (f g : Nat → Nat)
    (step : Buf → Nat → Buf)
    (hstep : ∀ o k, step o k = if cond k then setBitOr o (f k) (g k) else o)
    (l : List Nat) (out : Buf)
    (hf : ∀ k ∈ l, f k < out.length) (hg : ∀ k ∈ l, g k < 8)
    (j s : Nat) (hs : s < 8) :
    (getBit (l.foldl step out) j s = true) ↔
      ((∃ k, k ∈ l ∧ cond k ∧ f k = j ∧ g k = s) ∨ getBit out j s = true) := by
  induction l generalizing out with
  | nil => simp
  | cons a l ih =>
      rw [List.foldl_cons]
      have hlen : (step out a).length = out.length := by
        rw [hstep]
        split
        · exact length_setBitOr out (f a) (g a)
        · rfl
      have hf' : ∀ k ∈ l, f k < (step out a).length := by
        intro k hk
        rw [hlen]
        exact hf k (List.mem_cons_of_mem a hk)
      have hg' : ∀ k ∈ l, g k < 8 := fun k hk => hg k (List.mem_cons_of_mem a hk)
      rw [ih (step out a) hf' hg']
      have hbase : (getBit (step out a) j s = true) ↔
          ((cond a ∧ f a = j ∧ g a = s) ∨ getBit out j s = true) := by
        rw [hstep]
        by_cases hc : cond a
        · rw [if_pos hc,
            getBit_setBitOr out (f a) (g a) j s
              (hg a (List.mem_cons_self a l)) hs (hf a (List.mem_cons_self a l))]
          constructor
          · rintro (⟨h1, h2⟩ | hb)
            · exact Or.inl ⟨hc, h1.symm, h2.symm⟩
            · exact Or.inr hb
          · rintro (⟨-, h1, h2⟩ | hb)
            · exact Or.inl ⟨h1.symm, h2.symm⟩
            · exact Or.inr hb
        · rw [if_neg hc]
          constructor
          · intro hb
            exact Or.inr hb
          · rintro (⟨hca, -⟩ | hb)
            · exact absurd hca hc
            · exact hb
      rw [hbase]
      constructor
      · rintro (⟨k, hk, hck⟩ | (⟨hc1, hc2, hc3⟩ | hb))
        · exact Or.inl ⟨k, List.mem_cons_of_mem a hk, hck⟩
        · exact Or.inl ⟨a, List.mem_cons_self a l, hc1, hc2, hc3⟩
        · exact Or.inr hb
      · rintro (⟨k, hk, hck⟩ | hb)
        · rcases List.mem_cons.mp hk with rfl | hkl
          · exact Or.inr (Or.inl hck)
          · exact Or.inl ⟨k, hkl, hck⟩
        · exact Or.inr (Or.inr hb)

theorem length_foldl2_bitstep
    (cond : Nat → Nat → Prop) [∀ x y, Decidable (cond x y)]
    (f g : Nat → Nat → Nat) (inner : Buf → Nat → Nat → Buf)
    (hinner : ∀ o x y, inner o x y =
      if cond x y then setBitOr o (f x y) (g x y) else o)
    (w h : Nat) (out : Buf) :
    ((List.range w).foldl
      (fun o x => (List.range h).foldl (fun o y => inner o x y) o) out).length =
      out.length := by
  induction w with
  | zero => rfl
  | succ w ih =>
      rw [List.range_succ, List.foldl_append, List.foldl_cons, List.foldl_nil]
      rw [length_foldl_bitstep (cond w) (f w) (g w) (fun o y => inner o w y)
        (fun o y => hinner o w y) (List.range h) _]
      exact ih

theorem getBit_foldl2_bitstep
    (cond : Nat → Nat → Prop) [∀ x y, Decidable (cond x y)]
    (f g : Nat → Nat → Nat) (inner : Buf → Nat → Nat → Buf)
    (hinner : ∀ o x y, inner o x y =
      if cond x y then setBitOr o (f x y) (g x y) else o)
    (w h : Nat) (out : Buf)
    (hf : ∀ x y, x < w → y < h → f x y < out.length)
    (hg : ∀ x y, x < w → y < h → g x y < 8)
    (j s : Nat) (hs : s < 8) :
    (getBit ((List.range w).foldl
        (fun o x => (List.range h).foldl (fun o y => inner o x y) o) out) j s
      = true) ↔
      ((∃ x, x < w ∧ ∃ y, y < h ∧ cond x y ∧ f x y = j ∧ g x y = s) ∨
        getBit out j s = true) := by
  induction w with
  | zero =>
      simp only [List.range_zero, List.foldl_nil]
      constructor
      · intro hb
        exact Or.inr hb
      · rintro (⟨x, hx, -⟩ | hb)
        · exact absurd hx (Nat.not_lt_zero x)
        · exact hb
  | succ w ih =>
      rw [List.range_succ, List.foldl_append, List.foldl_cons, List.foldl_nil]
      have hlenw : ((List.range w).foldl
          (fun o x => (List.range h).foldl (fun o y => inner o x y) o)
            out).length = out.length :=
        length_foldl2_bitstep cond f g inner hinner w h out
      rw [getBit_foldl_bitstep (cond w) (f w) (g w) (fun o y => inner o w y)
        (fun o y => hinner o w y) (List.range h) _
        (by
          intro k hk
          rw [hlenw]
          exact hf w k (Nat.lt_succ_self w) (List.mem_range.mp hk))
        (by
          intro k hk
          exact hg w k (Nat.lt_succ_self w) (List.mem_range.mp hk))
        j s hs]
      rw [ih (fun x y hx hy => hf x y (Nat.lt_succ_of_lt hx) hy)
        (fun x y hx hy => hg x y (Nat.lt_succ_of_lt hx) hy)]
      constructor
      · rintro (⟨k, hk, hck⟩ | (⟨x, hx, hcx⟩ | hb))
        · exact Or.inl ⟨w, Nat.lt_succ_self w, k, List.mem_range.mp hk, hck⟩
        · exact Or.inl ⟨x, Nat.lt_succ_of_lt hx, hcx⟩
        · exact Or.inr hb
      · rintro (⟨x, hx, y, hy, hcxy⟩ | hb)
        · rcases Nat.lt_succ_iff_lt_or_eq.mp hx with hxw | rfl
          · exact Or.inr (Or.inl ⟨x, hxw, y, hy, hcxy⟩)
          · exact Or.inl ⟨y, List.mem_range.mpr hy, hcxy⟩
        · exact Or.inr (Or.inr hb)

/-! ## The byte-aligned 1-bit variant -/

theorem getBit_oob {buf : Buf} {i : Nat} (h : buf.length ≤ i) (s : Nat) :
    getBit buf i s = false := by
  unfold getBit getByte
  rw [List.getD_eq_getElem?_getD, List.getElem?_eq_none h]
  simp [Nat.zero_testBit]

/-- The loop body of `transpose1BitAligned`, as written in the source. -/
def alignedInner (input : Buf) (w h : Nat) (o : Buf) (x y : Nat) : Buf :=
  if ((getByte input (y * (w >>> 3) + (x >>> 3)) >>> (7 - (x &&& 7))) &&& 1) ≠ 0
  then setBitOr o (x * (h >>> 3) + (y >>> 3)) (7 - (y &&& 7))
  else o

theorem transpose1BitAligned_eq_fold (input : Buf) (w h : Nat) :
    transpose1BitAligned input w h =
      (List.range w).foldl
        (fun o x => (List.range h).foldl
          (fun o y => alignedInner input w h o x y) o)
        (List.replicate (w * (h >>> 3)) 0) := rfl

theorem alignedInner_eq (input : Buf) (w h : Nat) (o : Buf) (x y : Nat) :
    alignedInner input w h o x y =
      if getBit input (y * (w / 8) + x / 8) (7 - x % 8) = true then
        setBitOr o (x * (h / 8) + y / 8) (7 - y % 8)
      else o := by
  unfold alignedInner
  simp only [shiftRight3, and7]
  by_cases hc : getBit input (y * (w / 8) + x / 8) (7 - x % 8) = true
  · rw [if_pos ((shift_and_one_ne_zero _ _).mpr hc), if_pos hc]
  · rw [if_neg (fun hne => hc ((shift_and_one_ne_zero _ _).mp hne)), if_neg hc]

theorem transpose1BitAligned_length (input : Buf) (w h : Nat) :
    (transpose1BitAligned input w h).length = w * (h / 8) := by
  rw [transpose1BitAligned_eq_fold,
    length_foldl2_bitstep
      (fun x y => getBit input (y * (w / 8) + x / 8) (7 - x % 8) = true)
      (fun x y => x * (h / 8) + y / 8) (fun x y => 7 - y % 8)
      (alignedInner input w h) (alignedInner_eq input w h) w h _,
    List.length_replicate, shiftRight3]

theorem getBit_transpose1BitAligned (input : Buf) (w h : Nat)
    (hh8 : h % 8 = 0) (j s : Nat) (hs : s < 8) :
    (getBit (transpose1BitAligned input w h) j s = true) ↔
      (∃ x, x < w ∧ ∃ y, y < h ∧
        getBit input (y * (w / 8) + x / 8) (7 - x % 8) = true ∧
        x * (h / 8) + y / 8 = j ∧ 7 - y % 8 = s) := by
  rw [transpose1BitAligned_eq_fold,
    getBit_foldl2_bitstep
      (fun x y => getBit input (y * (w / 8) + x / 8) (7 - x % 8) = true)
      (fun x y => x * (h / 8) + y / 8) (fun x y => 7 - y % 8)
      (alignedInner input w h) (alignedInner_eq input w h) w h _
      (by
        intro x y hx hy
        rw [List.length_replicate, shiftRight3]
        have hB : y / 8 < h / 8 := by omega
        calc x * (h / 8) + y / 8 < x * (h / 8) + h / 8 :=
              Nat.add_lt_add_left hB _
          _ = (x + 1) * (h / 8) := (Nat.succ_mul x (h / 8)).symm
          _ ≤ w * (h / 8) := Nat.mul_le_mul_right _ hx)
      (by
        intro x y hx hy
        exact Nat.lt_succ_of_le (Nat.sub_le 7 _))
      j s hs]
  simp [getBit_replicate]

/-- Euclidean uniqueness of the output bit position `(x * B + y / 8, 7 - y % 8)`
for `y / 8 < B`. -/
theorem bitpos_inj (B x1 y1 x2 y2 : Nat) (hB1 : y1 / 8 < B) (hB2 : y2 / 8 < B)
    (h1 : x1 * B + y1 / 8 = x2 * B + y2 / 8) (h2 : 7 - y1 % 8 = 7 - y2 % 8) :
    x1 = x2 ∧ y1 = y2 := by
  have hBpos : 0 < B := Nat.lt_of_le_of_lt (Nat.zero_le _) hB1
  have e1 : (x1 * B + y1 / 8) / B = x1 := by
    rw [Nat.mul_comm x1 B, Nat.mul_add_div hBpos, Nat.div_eq_of_lt hB1,
      Nat.add_zero]
  have e2 : (x2 * B + y2 / 8) / B = x2 := by
    rw [Nat.mul_comm x2 B, Nat.mul_add_div hBpos, Nat.div_eq_of_lt hB2,
      Nat.add_zero]
  have hx : x1 = x2 := by rw [← e1, ← e2, h1]
  subst hx
  have hdiv : y1 / 8 = y2 / 8 := Nat.add_left_cancel h1
  exact ⟨rfl, by omega⟩

/-! ## The generic-stride 1-bit variant -/

/-- The loop body of `transpose1BitGeneric`, as written in the source:
a bounds check on the input index, then the conditional bit write. -/
def genericInner (input : Buf) (w h : Nat) (o : Buf) (x y : Nat) : Buf :=
  if y * ((w + 7) / 8) + (x >>> 3) < input.length then
    if ((getByte input (y * ((w + 7) / 8) + (x >>> 3)) >>>
          (7 - (x &&& 7))) &&& 1) ≠ 0
    then setBitOr o (x * ((h + 7) / 8) + (y >>> 3)) (7 - (y &&& 7))
    else o
  else o

theorem transpose1BitGeneric_eq_fold (input : Buf) (w h : Nat) :
    transpose1BitGeneric input w h =
      (List.range w).foldl
        (fun o x => (List.range h).foldl
          (fun o y => genericInner input w h o x y) o)
        (List.replicate (w * ((h + 7) / 8)) 0) := rfl

theorem genericInner_eq (input : Buf) (w h : Nat) (o : Buf) (x y : Nat) :
    genericInner input w h o x y =
      if getBit input (y * ((w + 7) / 8) + x / 8) (7 - x % 8) = true then
        setBitOr o (x * ((h + 7) / 8) + y / 8) (7 - y % 8)
      else o := by
  unfold genericInner
  simp only [shiftRight3, and7]
  by_cases hin : y * ((w + 7) / 8) + x / 8 < input.length
  · rw [if_pos hin]
    by_cases hc : getBit input (y * ((w + 7) / 8) + x / 8) (7 - x % 8) = true
    · rw [if_pos ((shift_and_one_ne_zero _ _).mpr hc), if_pos hc]
    · rw [if_neg (fun hne => hc ((shift_and_one_ne_zero _ _).mp hne)), if_neg hc]
  · rw [if_neg hin, if_neg]
    intro hc
    rw [getBit_oob (Nat.le_of_not_lt hin)] at hc
    exact Bool.false_ne_true hc

theorem transpose1BitGeneric_length (input : Buf) (w h : Nat) :
    (transpose1BitGeneric input w h).length = w * ((h + 7) / 8) := by
  rw [transpose1BitGeneric_eq_fold,
    length_foldl2_bitstep
      (fun x y => getBit input (y * ((w + 7) / 8) + x / 8) (7 - x % 8) = true)
      (fun x y => x * ((h + 7) / 8) + y / 8) (fun x y => 7 - y % 8)
      (genericInner input w h) (genericInner_eq input w h) w h _,
    List.length_replicate]

theorem getBit_transpose1BitGeneric (input : Buf) (w h : Nat)
    (j s : Nat) (hs : s < 8) :
    (getBit (transpose1BitGeneric input w h) j s = true) ↔
      (∃ x, x < w ∧ ∃ y, y < h ∧
        getBit input (y * ((w + 7) / 8) + x / 8) (7 - x % 8) = true ∧
        x * ((h + 7) / 8) + y / 8 = j ∧ 7 - y % 8 = s) := by
  rw [transpose1BitGeneric_eq_fold,
    getBit_foldl2_bitstep
      (fun x y => getBit input (y * ((w + 7) / 8) + x / 8) (7 - x % 8) = true)
      (fun x y => x * ((h + 7) / 8) + y / 8) (fun x y => 7 - y % 8)
      (genericInner input w h) (genericInner_eq input w h) w h _
      (by
        intro x y hx hy
        rw [List.length_replicate]
        have hB : y / 8 < (h + 7) / 8 := by omega
        calc x * ((h + 7) / 8) + y / 8 < x * ((h + 7) / 8) + (h + 7) / 8 :=
              Nat.add_lt_add_left hB _
          _ = (x + 1) * ((h + 7) / 8) := (Nat.succ_mul x ((h + 7) / 8)).symm
          _ ≤ w * ((h + 7) / 8) := Nat.mul_le_mul_right _ hx)
      (by
        intro x y hx hy
        exact Nat.lt_succ_of_le (Nat.sub_le 7 _))
      j s hs]
  simp [getBit_replicate]

/-! ## Claim theorems -/

/-- C1: For the byte-aligned 1-bit variant, under the precondition that
`width` and `height` are multiples of 8 and the input has `width/8 * height`
bytes: the output has exactly `width * (height/8)` bytes, and for every
`(x, y)` with `x < width`, `y < height`, the bit at output row `x`, column `y`
(row stride `height/8` bytes, MSB-first) equals the bit at input row `y`,
column `x` (row stride `width/8` bytes, MSB-first).  In particular the 8×8
diagonal input `[0x80,0x40,0x20,0x10,0x08,0x04,0x02,0x01]` transposes to
itself. -/
theorem claim_C1 (input : Buf) (w h : Nat)
    (hw8 : w % 8 = 0) (hh8 : h % 8 = 0)
    (hlen : input.length = w / 8 * h) :
    (transpose1BitAligned input w h).length = w * (h / 8) ∧
    (∀ x y, x < w → y < h →
      getBit (transpose1BitAligned input w h)
          (x * (h / 8) + y / 8) (7 - y % 8) =
        getBit input (y * (w / 8) + x / 8) (7 - x % 8)) ∧
    transpose1BitAligned [128, 64, 32, 16, 8, 4, 2, 1] 8 8 =
      [128, 64, 32, 16, 8, 4, 2, 1] := by
  refine ⟨transpose1BitAligned_length input w h, ?_, by decide⟩
  intro x y hx hy
  have hs : 7 - y % 8 < 8 := Nat.lt_succ_of_le (Nat.sub_le 7 _)
  rw [Bool.eq_iff_iff, getBit_transpose1BitAligned input w h hh8 _ _ hs]
  constructor
  · rintro ⟨x2, hx2, y2, hy2, hbit, hidx, hsh⟩
    have hB2 : y2 / 8 < h / 8 := by omega
    have hB1 : y / 8 < h / 8 := by omega
    obtain ⟨rfl, rfl⟩ := bitpos_inj (h / 8) x2 y2 x y hB2 hB1 hidx hsh
    exact hbit
  · intro hbit
    exact ⟨x, hx, y, hy, hbit, rfl, rfl⟩

theorem claim_C1_witness :
    (8 % 8 = 0) ∧ ([128, 64, 32, 16, 8, 4, 2, 1] : Buf).length = 8 / 8 * 8 ∧
    ((transpose1BitAligned [128, 64, 32, 16, 8, 4, 2, 1] 8 8).length =
        8 * (8 / 8) ∧
      (∀ x y, x < 8 → y < 8 →
        getBit (transpose1BitAligned [128, 64, 32, 16, 8, 4, 2, 1] 8 8)
            (x * (8 / 8) + y / 8) (7 - y % 8) =
          getBit [128, 64, 32, 16, 8, 4, 2, 1]
            (y * (8 / 8) + x / 8) (7 - x % 8)) ∧
      transpose1BitAligned [128, 64, 32, 16, 8, 4, 2, 1] 8 8 =
        [128, 64, 32, 16, 8, 4, 2, 1]) :=
  ⟨by decide, by decide,
    claim_C1 [128, 64, 32, 16, 8, 4, 2, 1] 8 8 (by decide) (by decide)
      (by decide)⟩

/-- C2: For the generic-stride 1-bit variant, for every `width > 0`,
`height > 0` and input buffer of any length: the output has exactly
`width * ceil(height/8)` bytes; every input byte index is compared with the
input length before reading and an out-of-range index contributes bit value 0
(the function is total, no error); for in-range indices the bit mapping is the
byte-aligned one with strides `ceil(width/8)` / `ceil(height/8)`. -/
theorem claim_C2 (input : Buf) (w h : Nat) (hw : 0 < w) (hh : 0 < h) :
    (transpose1BitGeneric input w h).length = w * ((h + 7) / 8) ∧
    (∀ x y, x < w → y < h →
      getBit (transpose1BitGeneric input w h)
          (x * ((h + 7) / 8) + y / 8) (7 - y % 8) =
        (decide (y * ((w + 7) / 8) + x / 8 < input.length) &&
          getBit input (y * ((w + 7) / 8) + x / 8) (7 - x % 8))) := by
  refine ⟨transpose1BitGeneric_length input w h, ?_⟩
  intro x y hx hy
  have habs : (decide (y * ((w + 7) / 8) + x / 8 < input.length) &&
      getBit input (y * ((w + 7) / 8) + x / 8) (7 - x % 8)) =
      getBit input (y * ((w + 7) / 8) + x / 8) (7 - x % 8) := by
    by_cases hin : y * ((w + 7) / 8) + x / 8 < input.length
    · simp [hin]
    · simp [hin, getBit_oob (Nat.le_of_not_lt hin)]
  rw [habs]
  have hs : 7 - y % 8 < 8 := Nat.lt_succ_of_le (Nat.sub_le 7 _)
  rw [Bool.eq_iff_iff, getBit_transpose1BitGeneric input w h _ _ hs]
  constructor
  · rintro ⟨x2, hx2, y2, hy2, hbit, hidx, hsh⟩
    have hB2 : y2 / 8 < (h + 7) / 8 := by omega
    have hB1 : y / 8 < (h + 7) / 8 := by omega
    obtain ⟨rfl, rfl⟩ := bitpos_inj ((h + 7) / 8) x2 y2 x y hB2 hB1 hidx hsh
    exact hbit
  · intro hbit
    exact ⟨x, hx, y, hy, hbit, rfl, rfl⟩

theorem claim_C2_witness :
    (0 : Nat) < 5 ∧ (0 : Nat) < 3 ∧
    ((transpose1BitGeneric [170] 5 3).length = 5 * ((3 + 7) / 8) ∧
      (∀ x y, x < 5 → y < 3 →
        getBit (transpose1BitGeneric [170] 5 3)
            (x * ((3 + 7) / 8) + y / 8) (7 - y % 8) =
          (decide (y * ((5 + 7) / 8) + x / 8 < ([170] : Buf).length) &&
            getBit [170] (y * ((5 + 7) / 8) + x / 8) (7 - x % 8)))) :=
  ⟨by decide, by decide, claim_C2 [170] 5 3 (by decide) (by decide)⟩

/-- C8: For a correctly sized 1-bit input whose only set bit is at column
`x0`, row `y0`, both the byte-aligned variant (when `width` and `height` are
multiples of 8) and the generic-stride variant produce an output whose only
set bit is at output row `x0`, column `y0`, addressed with the variant's own
output stride and the MSB-first convention; every other output bit is 0. -/
theorem claim_C8 (w h x0 y0 : Nat) (hx0 : x0 < w) (hy0 : y0 < h) :
    (∀ input : Buf, w % 8 = 0 → h % 8 = 0 → input.length = w / 8 * h →
      (∀ x y, x < w → y < h →
        (getBit input (y * (w / 8) + x / 8) (7 - x % 8) = true ↔
          (x = x0 ∧ y = y0))) →
      ∀ j s, s < 8 →
        (getBit (transpose1BitAligned input w h) j s = true ↔
          (j = x0 * (h / 8) + y0 / 8 ∧ s = 7 - y0 % 8))) ∧
    (∀ input : Buf, input.length = (w + 7) / 8 * h →
      (∀ x y, x < w → y < h →
        (getBit input (y * ((w + 7) / 8) + x / 8) (7 - x % 8) = true ↔
          (x = x0 ∧ y = y0))) →
      ∀ j s, s < 8 →
        (getBit (transpose1BitGeneric input w h) j s = true ↔
          (j = x0 * ((h + 7) / 8) + y0 / 8 ∧ s = 7 - y0 % 8))) := by
  constructor
  · intro input hw8 hh8 hlen hsingle j s hs
    rw [getBit_transpose1BitAligned input w h hh8 j s hs]
    constructor
    · rintro ⟨x, hx, y, hy, hbit, hj, hs2⟩
      obtain ⟨rfl, rfl⟩ := (hsingle x y hx hy).mp hbit
      exact ⟨hj.symm, hs2.symm⟩
    · rintro ⟨rfl, rfl⟩
      exact ⟨x0, hx0, y0, hy0, (hsingle x0 y0 hx0 hy0).mpr ⟨rfl, rfl⟩, rfl, rfl⟩
  · intro input hlen hsingle j s hs
    rw [getBit_transpose1BitGeneric input w h j s hs]
    constructor
    · rintro ⟨x, hx, y, hy, hbit, hj, hs2⟩
      obtain ⟨rfl, rfl⟩ := (hsingle x y hx hy).mp hbit
      exact ⟨hj.symm, hs2.symm⟩
    · rintro ⟨rfl, rfl⟩
      exact ⟨x0, hx0, y0, hy0, (hsingle x0 y0 hx0 hy0).mpr ⟨rfl, rfl⟩, rfl, rfl⟩

theorem claim_C8_witness :
    (1 : Nat) < 8 ∧ (2 : Nat) < 8 ∧ (8 % 8 = 0) ∧
    ([0, 0, 64, 0, 0, 0, 0, 0] : Buf).length = 8 / 8 * 8 ∧
    (getBit (transpose1BitAligned [0, 0, 64, 0, 0, 0, 0, 0] 8 8) 1 5 = true ↔
      ((1 : Nat) = 1 * (8 / 8) + 2 / 8 ∧ (5 : Nat) = 7 - 2 % 8)) :=
  ⟨by decide, by decide, by decide, by decide,
    (claim_C8 8 8 1 2 (by decide) (by decide)).1 [0, 0, 64, 0, 0, 0, 0, 0]
      (by decide) (by decide) (by decide)
      (by intro x y hx hy
          interval_cases x <;> interval_cases y <;> decide)
      1 5 (by decide)⟩

/-! ## The 8-bit variant -/

theorem getD_setByte (buf : Buf) (i v p : Nat) :
    (setByte buf i v).getD p 0 =
      if p = i ∧ i < buf.length then v % 256 else buf.getD p 0 := by
  unfold setByte
  by_cases hi : i < buf.length
  · rw [if_pos hi, List.getD_eq_getElem?_getD, List.getElem?_set]
    by_cases hpi : i = p
    · subst hpi
      rw [if_pos rfl, if_pos hi, if_pos ⟨rfl, hi⟩]
      rfl
    · rw [if_neg hpi, ← List.getD_eq_getElem?_getD,
        if_neg (fun hc => hpi hc.1.symm)]
  · rw [if_neg hi, if_neg (fun hc => hi hc.2)]

theorem length_foldl_bytestep
    (F V : Nat → Nat) (step : Buf → Nat → Buf)
    (hstep : ∀ o k, step o k = setByte o (F k) (V k))
    (l : List Nat) (out : Buf) :
    (l.foldl step out).length = out.length := by
  induction l generalizing out with
  | nil => rfl
  | cons a l ih =>
      rw [List.foldl_cons, ih, hstep]
      exact length_setByte out (F a) (V a)

theorem getD_foldl_bytestep_untouched
    (F V : Nat → Nat) (step : Buf → Nat → Buf)
    (hstep : ∀ o k, step o k = setByte o (F k) (V k))
    (l : List Nat) (out : Buf) (p : Nat)
    (hne : ∀ k ∈ l, F k ≠ p) :
    (l.foldl step out).getD p 0 = out.getD p 0 := by
  induction l generalizing out with
  | nil => rfl
  | cons a l ih =>
      rw [List.foldl_cons,
        ih (step out a) (fun k hk => hne k (List.mem_cons_of_mem a hk)),
        hstep, getD_setByte,
        if_neg (fun hc => hne a (List.mem_cons_self a l) hc.1.symm)]

theorem getD_foldl_bytestep_inj
    (F V : Nat → Nat) (step : Buf → Nat → Buf)
    (hstep : ∀ o k, step o k = setByte o (F k) (V k))
    (l : List Nat) (out : Buf)
    (hnd : l.Nodup)
    (hinj : ∀ k1 ∈ l, ∀ k2 ∈ l, F k1 = F k2 → k1 = k2)
    (hlen : ∀ k ∈ l, F k < out.length)
    (k : Nat) (hk : k ∈ l) :
    (l.foldl step out).getD (F k) 0 = V k % 256 := by
  induction l generalizing out with
  | nil => exact absurd hk (List.not_mem_nil k)
  | cons a l ih =>
      rw [List.foldl_cons]
      rcases List.mem_cons.mp hk with rfl | hkl
      · rw [getD_foldl_bytestep_untouched F V step hstep l (step out k) (F k)
          (by
            intro k2 hk2 hFk2
            have : k2 = k := hinj k2 (List.mem_cons_of_mem k hk2) k
              (List.mem_cons_self k l) hFk2
            subst this
            exact (List.nodup_cons.mp hnd).1 hk2)]
        rw [hstep, getD_setByte,
          if_pos ⟨rfl, hlen k (List.mem_cons_self k l)⟩]
      · have hlen' : ∀ k2 ∈ l, F k2 < (step out a).length := by
          intro k2 hk2
          rw [hstep, length_setByte]
          exact hlen k2 (List.mem_cons_of_mem a hk2)
        exact ih (step out a) (List.nodup_cons.mp hnd).2
          (fun k1 h1 k2 h2 => hinj k1 (List.mem_cons_of_mem a h1) k2
            (List.mem_cons_of_mem a h2))
          hlen' hkl

theorem length_foldl2_bytestep
    (F V : Nat → Nat → Nat) (inner : Buf → Nat → Nat → Buf)
    (hinner : ∀ o x y, inner o x y = setByte o (F x y) (V x y))
    (w h : Nat) (out : Buf) :
    ((List.range w).foldl
      (fun o x => (List.range h).foldl (fun o y => inner o x y) o) out).length =
      out.length := by
  induction w with
  | zero => rfl
  | succ w ih =>
      rw [List.range_succ, List.foldl_append, List.foldl_cons, List.foldl_nil]
      rw [length_foldl_bytestep (F w) (V w) (fun o y => inner o w y)
        (fun o y => hinner o w y) (List.range h) _]
      exact ih

theorem getD_foldl2_bytestep
    (F V : Nat → Nat → Nat) (inner : Buf → Nat → Nat → Buf)
    (hinner : ∀ o x y, inner o x y = setByte o (F x y) (V x y))
    (w h : Nat) (out : Buf)
    (hinj : ∀ x1 y1 x2 y2, x1 < w → y1 < h → x2 < w → y2 < h →
      F x1 y1 = F x2 y2 → x1 = x2 ∧ y1 = y2)
    (hlen : ∀ x y, x < w → y < h → F x y < out.length)
    (x y : Nat) (hx : x < w) (hy : y < h) :
    ((List.range w).foldl
      (fun o x => (List.range h).foldl (fun o y => inner o x y) o) out).getD
        (F x y) 0 = V x y % 256 := by
  induction w with
  | zero => exact absurd hx (Nat.not_lt_zero x)
  | succ w ih =>
      rw [List.range_succ, List.foldl_append, List.foldl_cons, List.foldl_nil]
      rcases Nat.lt_succ_iff_lt_or_eq.mp hx with hxw | rfl
      · rw [getD_foldl_bytestep_untouched (F w) (V w) (fun o y => inner o w y)
          (fun o y => hinner o w y) (List.range h) _ (F x y)
          (by
            intro k hk hFk
            have hne := (hinj w k x y (Nat.lt_succ_self w)
              (List.mem_range.mp hk) (Nat.lt_succ_of_lt hxw) hy hFk).1
            omega)]
        exact ih (fun x1 y1 x2 y2 h1 h2 h3 h4 =>
            hinj x1 y1 x2 y2 (Nat.lt_succ_of_lt h1) h2 (Nat.lt_succ_of_lt h3) h4)
          (fun x1 y1 h1 h2 => hlen x1 y1 (Nat.lt_succ_of_lt h1) h2) hxw
      · have hlenw : ((List.range x).foldl
            (fun o x => (List.range h).foldl (fun o y => inner o x y) o)
              out).length = out.length :=
          length_foldl2_bytestep F V inner hinner x h out
        rw [getD_foldl_bytestep_inj (F x) (V x) (fun o y => inner o x y)
          (fun o y => hinner o x y) (List.range h) _ (List.nodup_range h)
          (fun k1 h1 k2 h2 hFk =>
            (hinj x k1 x k2 (Nat.lt_succ_self x) (List.mem_range.mp h1)
              (Nat.lt_succ_self x) (List.mem_range.mp h2) hFk).2)
          (by
            intro k hk
            rw [hlenw]
            exact hlen x k (Nat.lt_succ_self x) (List.mem_range.mp hk))
          y (List.mem_range.mpr hy)]

/-- Euclidean uniqueness of the row-major position `x * h + y` for `y < h`. -/
theorem rowmajor_inj (h x1 y1 x2 y2 : Nat) (hy1 : y1 < h) (hy2 : y2 < h)
    (heq : x1 * h + y1 = x2 * h + y2) : x1 = x2 ∧ y1 = y2 := by
  have hpos : 0 < h := Nat.lt_of_le_of_lt (Nat.zero_le _) hy1
  have e1 : (x1 * h + y1) / h = x1 := by
    rw [Nat.mul_comm x1 h, Nat.mul_add_div hpos, Nat.div_eq_of_lt hy1,
      Nat.add_zero]
  have e2 : (x2 * h + y2) / h = x2 := by
    rw [Nat.mul_comm x2 h, Nat.mul_add_div hpos, Nat.div_eq_of_lt hy2,
      Nat.add_zero]
  have hx : x1 = x2 := by rw [← e1, ← e2, heq]
  subst hx
  exact ⟨rfl, Nat.add_left_cancel heq⟩

/-- The loop body of `transpose8Bit`, as written in the source. -/
def byteInner (input : Buf) (w h : Nat) (o : Buf) (x y : Nat) : Buf :=
  setByte o (x * h + y) (getByte input (y * w + x))

theorem transpose8Bit_eq_fold (input : Buf) (w h : Nat) :
    transpose8Bit input w h =
      (List.range w).foldl
        (fun o x => (List.range h).foldl
          (fun o y => byteInner input w h o x y) o)
        (List.replicate (w * h) 0) := rfl

theorem transpose8Bit_length (input : Buf) (w h : Nat) :
    (transpose8Bit input w h).length = w * h := by
  rw [transpose8Bit_eq_fold,
    length_foldl2_bytestep (fun x y => x * h + y)
      (fun x y => getByte input (y * w + x)) (byteInner input w h)
      (fun o x y => rfl) w h _,
    List.length_replicate]

theorem transpose8Bit_getD (input : Buf) (w h x y : Nat)
    (hx : x < w) (hy : y < h) :
    (transpose8Bit input w h).getD (x * h + y) 0 =
      getByte input (y * w + x) % 256 := by
  rw [transpose8Bit_eq_fold]
  exact getD_foldl2_bytestep (fun x y => x * h + y)
    (fun x y => getByte input (y * w + x)) (byteInner input w h)
    (fun o x y => rfl) w h _
    (fun x1 y1 x2 y2 h1 h2 h3 h4 heq => rowmajor_inj h x1 y1 x2 y2 h2 h4 heq)
    (by
      intro x1 y1 h1 h2
      rw [List.length_replicate]
      calc x1 * h + y1 < x1 * h + h := Nat.add_lt_add_left h2 _
        _ = (x1 + 1) * h := (Nat.succ_mul x1 h).symm
        _ ≤ w * h := Nat.mul_le_mul_right _ h1)
    x y hx hy

theorem getD_lt_256 {input : Buf} (hbytes : isBytes input) (i : Nat) :
    input.getD i 0 < 256 := by
  by_cases hi : i < input.length
  · rw [getD_in_range hi]
    exact hbytes _ (List.get_mem input i hi)
  · rw [List.getD_eq_getElem?_getD, List.getElem?_eq_none (Nat.le_of_not_lt hi)]
    norm_num

/-- C4: For the 8-bit variant, for every `width > 0`, `height > 0` and input
buffer of `width*height` bytes: the output has exactly `width*height` bytes and
`output[x*height + y] = input[y*width + x]` for every in-range `(x, y)`.
In particular `[1,2,3,4,5,6]` with `width=2`, `height=3` transposes to
`[1,3,5,2,4,6]`. -/
theorem claim_C4 (input : Buf) (w h : Nat) (hw : 0 < w) (hh : 0 < h)
    (hlen : input.length = w * h) (hbytes : isBytes input) :
    (transpose8Bit input w h).length = w * h ∧
    (∀ x y, x < w → y < h →
      (transpose8Bit input w h).getD (x * h + y) 0 =
        input.getD (y * w + x) 0) ∧
    transpose8Bit [1, 2, 3, 4, 5, 6] 2 3 = [1, 3, 5, 2, 4, 6] := by
  refine ⟨transpose8Bit_length input w h, ?_, by decide⟩
  intro x y hx hy
  rw [transpose8Bit_getD input w h x y hx hy]
  exact Nat.mod_eq_of_lt (getD_lt_256 hbytes _)

theorem claim_C4_witness :
    (0 : Nat) < 2 ∧ (0 : Nat) < 3 ∧
    ([1, 2, 3, 4, 5, 6] : Buf).length = 2 * 3 ∧ isBytes [1, 2, 3, 4, 5, 6] ∧
    ((transpose8Bit [1, 2, 3, 4, 5, 6] 2 3).length = 2 * 3 ∧
      (∀ x y, x < 2 → y < 3 →
        (transpose8Bit [1, 2, 3, 4, 5, 6] 2 3).getD (x * 3 + y) 0 =
          ([1, 2, 3, 4, 5, 6] : Buf).getD (y * 2 + x) 0) ∧
      transpose8Bit [1, 2, 3, 4, 5, 6] 2 3 = [1, 3, 5, 2, 4, 6]) :=
  ⟨by decide, by decide, by decide, by decide,
    claim_C4 [1, 2, 3, 4, 5, 6] 2 3 (by decide) (by decide) (by decide)
      (by decide)⟩

/-- C7: For every `width > 0`, `height > 0` and 8-bit input buffer of exactly
`width*height` bytes, transposing twice with swapped dimensions is the
identity, both for the core `transpose8Bit` and through the dispatcher with
`bpp = 8`. -/
theorem claim_C7 (input : Buf) (w h : Nat) (hw : 0 < w) (hh : 0 < h)
    (hlen : input.length = w * h) (hbytes : isBytes input) :
    transpose8Bit (transpose8Bit input w h) h w = input ∧
    (transpose input w h ⟨some 8, none⟩).bind
      (fun t => transpose t h w ⟨some 8, none⟩) = Except.ok input := by
  have hcore : transpose8Bit (transpose8Bit input w h) h w = input := by
    apply List.ext_getElem
    · rw [transpose8Bit_length, hlen, Nat.mul_comm]
    · intro n h1 h2
      have hn : n < w * h := by
        rw [← hlen]
        exact h2
      have hxn : n / w < h := by
        rw [Nat.div_lt_iff_lt_mul hw, Nat.mul_comm]
        exact hn
      have hyn : n % w < w := Nat.mod_lt n hw
      have hrepr : (n / w) * w + n % w = n := by
        rw [Nat.mul_comm]
        exact Nat.div_add_mod n w
      rw [← List.getD_eq_getElem (transpose8Bit (transpose8Bit input w h) h w)
          0 h1,
        ← List.getD_eq_getElem input 0 h2, ← hrepr,
        transpose8Bit_getD (transpose8Bit input w h) h w (n / w) (n % w)
          hxn hyn]
      unfold getByte
      rw [transpose8Bit_getD input w h (n % w) (n / w) hyn hxn]
      unfold getByte
      rw [Nat.mod_eq_of_lt (getD_lt_256 hbytes _),
        Nat.mod_eq_of_lt (getD_lt_256 hbytes _)]
  refine ⟨hcore, ?_⟩
  have hred : (transpose input w h ⟨some 8, none⟩).bind
      (fun t => transpose t h w ⟨some 8, none⟩) =
      Except.ok (transpose8Bit (transpose8Bit input w h) h w) := rfl
  rw [hred, hcore]

theorem claim_C7_witness :
    (0 : Nat) < 2 ∧ (0 : Nat) < 3 ∧
    ([1, 2, 3, 4, 5, 6] : Buf).length = 2 * 3 ∧ isBytes [1, 2, 3, 4, 5, 6] ∧
    (transpose8Bit (transpose8Bit [1, 2, 3, 4, 5, 6] 2 3) 3 2 =
        [1, 2, 3, 4, 5, 6] ∧
      (transpose [1, 2, 3, 4, 5, 6] 2 3 ⟨some 8, none⟩).bind
        (fun t => transpose t 3 2 ⟨some 8, none⟩) =
          Except.ok [1, 2, 3, 4, 5, 6]) :=
  ⟨by decide, by decide, by decide, by decide,
    claim_C7 [1, 2, 3, 4, 5, 6] 2 3 (by decide) (by decide) (by decide)
      (by decide)⟩

/-- C5: The dispatcher selects the variant in source order: `bpp = 1` and
`packed` → packed variant; `bpp = 1` and both dimensions multiples of 8 →
byte-aligned variant; `bpp = 1` otherwise → generic variant; `bpp = 8` →
8-bit variant (for either packed flag).  An omitted `bpp` behaves as 1 and an
omitted `packed` behaves as `false`. -/
theorem claim_C5 (input : Buf) (w h : Nat) :
    (∀ p, transpose input w h ⟨some 1, p⟩ = transpose input w h ⟨none, p⟩) ∧
    (∀ b, transpose input w h ⟨b, some false⟩ =
      transpose input w h ⟨b, none⟩) ∧
    transpose input w h ⟨some 1, some true⟩ =
      Except.ok (transpose1BitPacked input w h) ∧
    (w % 8 = 0 → h % 8 = 0 → transpose input w h ⟨some 1, some false⟩ =
      Except.ok (transpose1BitAligned input w h)) ∧
    (¬(w % 8 = 0 ∧ h % 8 = 0) → transpose input w h ⟨some 1, some false⟩ =
      Except.ok (transpose1BitGeneric input w h)) ∧
    (∀ p, transpose input w h ⟨some 8, p⟩ =
      Except.ok (transpose8Bit input w h)) := by
  refine ⟨fun p => rfl, fun b => rfl, rfl, ?_, ?_, fun p => rfl⟩
  · intro hw8 hh8
    simp [transpose, effectiveBpp, effectivePacked, hw8, hh8]
  · intro hc
    simp [transpose, effectiveBpp, effectivePacked, hc]

theorem claim_C5_witness :
    (8 % 8 = 0) ∧ ¬((5 : Nat) % 8 = 0 ∧ (3 : Nat) % 8 = 0) ∧
    transpose [] 8 8 ⟨some 1, some false⟩ =
      Except.ok (transpose1BitAligned [] 8 8) ∧
    transpose [] 5 3 ⟨some 1, some false⟩ =
      Except.ok (transpose1BitGeneric [] 5 3) :=
  ⟨by decide, by decide,
    (claim_C5 [] 8 8).2.2.2.1 (by decide) (by decide),
    (claim_C5 [] 5 3).2.2.2.2.1 (by decide)⟩

/-- C6 counterexample: the claim says every `elementBits` value other than 1
or 8 fails with the unsupported-width error, but at `bpp = 0` the dispatcher
returns a 1-bit result instead of failing: the JS default `options.bpp || 1`
treats the falsy 0 as absent, so the unsupported-value check never sees it. -/
theorem claim_C6_counterexample :
    transpose [] 8 8 ⟨some 0, none⟩ =
      Except.ok (transpose1BitAligned [] 8 8) := rfl

/-- C6 (amended): for every `elementBits` value other than 0, 1 and 8 the
call fails with the `Unsupported bpp` error naming the offending value, and
no output buffer is produced.  (0 is excluded: being falsy in JS, it is
replaced by the default 1 before the check is reached — see the
counterexample and C10.) -/
theorem claim_C6 (input : Buf) (w h b : Nat) (p : Option Bool)
    (h0 : b ≠ 0) (h1 : b ≠ 1) (h8 : b ≠ 8) :
    transpose input w h ⟨some b, p⟩ =
      Except.error ("Unsupported bpp: " ++ toString b ++
        ". Only 1 and 8 are currently supported.") := by
  have hbpp : effectiveBpp ⟨some b, p⟩ = b := by
    cases b with
    | zero => exact absurd rfl h0
    | succ n => rfl
  simp only [transpose, hbpp, if_neg h1, if_neg h8]

theorem claim_C6_witness :
    (3 : Nat) ≠ 0 ∧ (3 : Nat) ≠ 1 ∧ (3 : Nat) ≠ 8 ∧
    transpose [] 4 4 ⟨some 3, none⟩ =
      Except.error ("Unsupported bpp: " ++ toString (3 : Nat) ++
        ". Only 1 and 8 are currently supported.") :=
  ⟨by decide, by decide, by decide,
    claim_C6 [] 4 4 3 none (by decide) (by decide) (by decide)⟩

/-- C10 (implicit): with `options.bpp = 0` (a falsy value in JS) the
dispatcher raises no error: `options.bpp || 1` applies the default 1 before
the unsupported-value check is reached, so the call behaves exactly like an
omitted `bpp` and returns a 1-bit-variant result. -/
theorem claim_C10 (input : Buf) (w h : Nat) (p : Option Bool) :
    transpose input w h ⟨some 0, p⟩ = transpose input w h ⟨none, p⟩ ∧
    (transpose input w h ⟨some 0, p⟩ =
        Except.ok (transpose1BitPacked input w h) ∨
      transpose input w h ⟨some 0, p⟩ =
        Except.ok (transpose1BitAligned input w h) ∨
      transpose input w h ⟨some 0, p⟩ =
        Except.ok (transpose1BitGeneric input w h)) := by
  refine ⟨rfl, ?_⟩
  by_cases hp : effectivePacked ⟨some 0, p⟩ = true
  · exact Or.inl (by simp [transpose, effectiveBpp, hp])
  · by_cases hal : w % 8 = 0 ∧ h % 8 = 0
    · exact Or.inr (Or.inl (by simp [transpose, effectiveBpp, hp, hal]))
    · exact Or.inr (Or.inr (by simp [transpose, effectiveBpp, hp, hal]))

/-! ## The packed 1-bit variant

`transpose1BitPacked` threads a pair state (output buffer, output bit
cursor); the cursor increases by exactly one per visited coordinate, so after
processing column `x` and row `y` it equals `x * height + y`.  The lemma
below eliminates the cursor, turning the pair fold into a plain fold. -/

theorem foldl_range_cursor {α : Type} (G : α → Nat → Nat → α) (d : Nat)
    (step : α × Nat → Nat → α × Nat)
    (hstep : ∀ st k, step st k = (G st.1 st.2 k, st.2 + d))
    (n : Nat) (out : α) (c0 : Nat) :
    (List.range n).foldl step (out, c0) =
      ((List.range n).foldl (fun o k => G o (c0 + d * k) k) out, c0 + d * n) := by
  induction n with
  | zero => simp
  | succ n ih =>
      rw [List.range_succ, List.foldl_append, List.foldl_cons, List.foldl_nil,
        List.foldl_append, List.foldl_cons, List.foldl_nil, ih, hstep]
      simp only [Prod.mk.injEq]
      exact ⟨by trivial, by ring⟩

/-- The loop body of `transpose1BitPacked` with the cursor already resolved
to `x * h + y`: bounds check, then a conditional write at the cursor bit. -/
def packedInner (input : Buf) (w h : Nat) (o : Buf) (x y : Nat) : Buf :=
  if y * ((w + 7) / 8) + (x >>> 3) < input.length then
    if ((getByte input (y * ((w + 7) / 8) + (x >>> 3)) >>>
          (7 - (x &&& 7))) &&& 1) ≠ 0
    then setBitOr o ((x * h + y) >>> 3) (7 - ((x * h + y) &&& 7))
    else o
  else o

theorem transpose1BitPacked_eq_fold (input : Buf) (w h : Nat) :
    transpose1BitPacked input w h =
      (List.range w).foldl
        (fun o x => (List.range h).foldl
          (fun o y => packedInner input w h o x y) o)
        (List.replicate ((w * h + 7) / 8) 0) := by
  have h1 : transpose1BitPacked input w h =
      ((List.range w).foldl
        (fun st x => (List.range h).foldl
          (fun (st : Buf × Nat) y =>
            (if y * ((w + 7) / 8) + (x >>> 3) < input.length then
               if ((getByte input (y * ((w + 7) / 8) + (x >>> 3)) >>>
                     (7 - (x &&& 7))) &&& 1) ≠ 0 then
                 setBitOr st.1 (st.2 >>> 3) (7 - (st.2 &&& 7))
               else st.1
             else st.1, st.2 + 1)) st)
        (List.replicate ((w * h + 7) / 8) 0, 0)).1 := rfl
  have h2 := foldl_range_cursor
    (fun o c x => (List.range h).foldl
      (fun o y =>
        if y * ((w + 7) / 8) + (x >>> 3) < input.length then
          if ((getByte input (y * ((w + 7) / 8) + (x >>> 3)) >>>
                (7 - (x &&& 7))) &&& 1) ≠ 0 then
            setBitOr o ((c + 1 * y) >>> 3) (7 - ((c + 1 * y) &&& 7))
          else o
        else o) o)
    (1 * h)
    (fun st x => (List.range h).foldl
      (fun (st : Buf × Nat) y =>
        (if y * ((w + 7) / 8) + (x >>> 3) < input.length then
           if ((getByte input (y * ((w + 7) / 8) + (x >>> 3)) >>>
                 (7 - (x &&& 7))) &&& 1) ≠ 0 then
             setBitOr st.1 (st.2 >>> 3) (7 - (st.2 &&& 7))
           else st.1
         else st.1, st.2 + 1)) st)
    (fun st x => foldl_range_cursor
      (fun o c y =>
        if y * ((w + 7) / 8) + (x >>> 3) < input.length then
          if ((getByte input (y * ((w + 7) / 8) + (x >>> 3)) >>>
                (7 - (x &&& 7))) &&& 1) ≠ 0 then
            setBitOr o (c >>> 3) (7 - (c &&& 7))
          else o
        else o)
      1
      (fun (st : Buf × Nat) y =>
        (if y * ((w + 7) / 8) + (x >>> 3) < input.length then
           if ((getByte input (y * ((w + 7) / 8) + (x >>> 3)) >>>
                 (7 - (x &&& 7))) &&& 1) ≠ 0 then
             setBitOr st.1 (st.2 >>> 3) (7 - (st.2 &&& 7))
           else st.1
         else st.1, st.2 + 1))
      (fun st y => rfl) h st.1 st.2)
    w (List.replicate ((w * h + 7) / 8) 0) 0
  rw [h1, h2]
  show (List.range w).foldl _ (List.replicate ((w * h + 7) / 8) 0) = _
  apply List.foldl_ext
  intro o x hx
  apply List.foldl_ext
  intro o2 y hy
  have hc : 0 + 1 * h * x + 1 * y = x * h + y := by ring
  rw [hc]
  rfl

theorem packedInner_eq (input : Buf) (w h : Nat) (o : Buf) (x y : Nat) :
    packedInner input w h o x y =
      if getBit input (y * ((w + 7) / 8) + x / 8) (7 - x % 8) = true then
        setBitOr o ((x * h + y) / 8) (7 - (x * h + y) % 8)
      else o := by
  unfold packedInner
  simp only [shiftRight3, and7]
  by_cases hin : y * ((w + 7) / 8) + x / 8 < input.length
  · rw [if_pos hin]
    by_cases hc : getBit input (y * ((w + 7) / 8) + x / 8) (7 - x % 8) = true
    · rw [if_pos ((shift_and_one_ne_zero _ _).mpr hc), if_pos hc]
    · rw [if_neg (fun hne => hc ((shift_and_one_ne_zero _ _).mp hne)), if_neg hc]
  · rw [if_neg hin, if_neg]
    intro hc
    rw [getBit_oob (Nat.le_of_not_lt hin)] at hc
    exact Bool.false_ne_true hc

theorem transpose1BitPacked_length (input : Buf) (w h : Nat) :
    (transpose1BitPacked input w h).length = (w * h + 7) / 8 := by
  rw [transpose1BitPacked_eq_fold,
    length_foldl2_bitstep
      (fun x y => getBit input (y * ((w + 7) / 8) + x / 8) (7 - x % 8) = true)
      (fun x y => (x * h + y) / 8) (fun x y => 7 - (x * h + y) % 8)
      (packedInner input w h) (packedInner_eq input w h) w h _,
    List.length_replicate]

theorem getBit_transpose1BitPacked (input : Buf) (w h : Nat)
    (j s : Nat) (hs : s < 8) :
    (getBit (transpose1BitPacked input w h) j s = true) ↔
      (∃ x, x < w ∧ ∃ y, y < h ∧
        getBit input (y * ((w + 7) / 8) + x / 8) (7 - x % 8) = true ∧
        (x * h + y) / 8 = j ∧ 7 - (x * h + y) % 8 = s) := by
  rw [transpose1BitPacked_eq_fold,
    getBit_foldl2_bitstep
      (fun x y => getBit input (y * ((w + 7) / 8) + x / 8) (7 - x % 8) = true)
      (fun x y => (x * h + y) / 8) (fun x y => 7 - (x * h + y) % 8)
      (packedInner input w h) (packedInner_eq input w h) w h _
      (by
        intro x y hx hy
        rw [List.length_replicate]
        have hmn : x * h + y < w * h := by
          calc x * h + y < x * h + h := Nat.add_lt_add_left hy _
            _ = (x + 1) * h := (Nat.succ_mul x h).symm
            _ ≤ w * h := Nat.mul_le_mul_right _ hx
        show (x * h + y) / 8 < (w * h + 7) / 8
        omega)
      (by
        intro x y hx hy
        exact Nat.lt_succ_of_le (Nat.sub_le 7 _))
      j s hs]
  simp [getBit_replicate]

/-- C3: For the tightly packed 1-bit variant: the input is read with row
stride `ceil(width/8)` bytes, the output has exactly `ceil(width*height/8)`
bytes, and the single output bit cursor — starting at 0, visiting `x` in the
outer and `y` in the inner loop and advancing by exactly one per coordinate,
set or not — places the bit for `(x, y)` at bit index `x*height + y`; an
out-of-range input read contributes 0. -/
theorem claim_C3 (input : Buf) (w h : Nat) (hw : 0 < w) (hh : 0 < h) :
    (transpose1BitPacked input w h).length = (w * h + 7) / 8 ∧
    (∀ x y, x < w → y < h →
      getBit (transpose1BitPacked input w h)
          ((x * h + y) / 8) (7 - (x * h + y) % 8) =
        (decide (y * ((w + 7) / 8) + x / 8 < input.length) &&
          getBit input (y * ((w + 7) / 8) + x / 8) (7 - x % 8))) := by
  refine ⟨transpose1BitPacked_length input w h, ?_⟩
  intro x y hx hy
  have habs : (decide (y * ((w + 7) / 8) + x / 8 < input.length) &&
      getBit input (y * ((w + 7) / 8) + x / 8) (7 - x % 8)) =
      getBit input (y * ((w + 7) / 8) + x / 8) (7 - x % 8) := by
    by_cases hin : y * ((w + 7) / 8) + x / 8 < input.length
    · simp [hin]
    · simp [hin, getBit_oob (Nat.le_of_not_lt hin)]
  rw [habs]
  have hs : 7 - (x * h + y) % 8 < 8 := Nat.lt_succ_of_le (Nat.sub_le 7 _)
  rw [Bool.eq_iff_iff, getBit_transpose1BitPacked input w h _ _ hs]
  constructor
  · rintro ⟨x2, hx2, y2, hy2, hbit, hidx, hsh⟩
    have hcur : x2 * h + y2 = x * h + y := by omega
    obtain ⟨rfl, rfl⟩ := rowmajor_inj h x2 y2 x y hy2 hy hcur
    exact hbit
  · intro hbit
    exact ⟨x, hx, y, hy, hbit, rfl, rfl⟩

theorem claim_C3_witness :
    (0 : Nat) < 5 ∧ (0 : Nat) < 3 ∧
    ((transpose1BitPacked [170] 5 3).length = (5 * 3 + 7) / 8 ∧
      (∀ x y, x < 5 → y < 3 →
        getBit (transpose1BitPacked [170] 5 3)
            ((x * 3 + y) / 8) (7 - (x * 3 + y) % 8) =
          (decide (y * ((5 + 7) / 8) + x / 8 < ([170] : Buf).length) &&
            getBit [170] (y * ((5 + 7) / 8) + x / 8) (7 - x % 8)))) :=
  ⟨by decide, by decide, claim_C3 [170] 5 3 (by decide) (by decide)⟩

/-! ## Frame property: the input buffer is never written

Each variant is re-embedded in state-passing style: the loop state carries
the input buffer alongside the output, every read goes through the state's
input component (`s.1`), and — matching the source, which assigns only to
`output[...]` — no step writes it.  The lemma below shows such a fold leaves
the input component untouched and computes the pure fold on the output
component. -/

theorem foldl_inp_const {α : Type} (g : Buf → α → Nat → α)
    (step : Buf × α → Nat → Buf × α)
    (hstep : ∀ s k, step s k = (s.1, g s.1 s.2 k))
    (l : List Nat) (s : Buf × α) :
    l.foldl step s = (s.1, l.foldl (g s.1) s.2) := by
  induction l generalizing s with
  | nil => rfl
  | cons a l ih =>
      rw [List.foldl_cons, List.foldl_cons, ih, hstep]

/-- `transpose1BitAligned` with the input buffer threaded through the loop
state (first component); only the output component is ever replaced. -/
def transpose1BitAlignedST (input : Buf) (w h : Nat) : Buf × Buf :=
  (List.range w).foldl
    (fun s x => (List.range h).foldl
      (fun (s : Buf × Buf) y =>
        (s.1,
         if ((getByte s.1 (y * (w >>> 3) + (x >>> 3)) >>>
               (7 - (x &&& 7))) &&& 1) ≠ 0
         then setBitOr s.2 (x * (h >>> 3) + (y >>> 3)) (7 - (y &&& 7))
         else s.2)) s)
    (input, List.replicate (w * (h >>> 3)) 0)

theorem transpose1BitAlignedST_spec (input : Buf) (w h : Nat) :
    transpose1BitAlignedST input w h = (input, transpose1BitAligned input w h) :=
  foldl_inp_const
    (fun inp o x => (List.range h).foldl
      (fun o y =>
        if ((getByte inp (y * (w >>> 3) + (x >>> 3)) >>>
              (7 - (x &&& 7))) &&& 1) ≠ 0
        then setBitOr o (x * (h >>> 3) + (y >>> 3)) (7 - (y &&& 7))
        else o) o)
    (fun s x => (List.range h).foldl
      (fun (s : Buf × Buf) y =>
        (s.1,
         if ((getByte s.1 (y * (w >>> 3) + (x >>> 3)) >>>
               (7 - (x &&& 7))) &&& 1) ≠ 0
         then setBitOr s.2 (x * (h >>> 3) + (y >>> 3)) (7 - (y &&& 7))
         else s.2)) s)
    (fun s x => foldl_inp_const
      (fun inp o y =>
        if ((getByte inp (y * (w >>> 3) + (x >>> 3)) >>>
              (7 - (x &&& 7))) &&& 1) ≠ 0
        then setBitOr o (x * (h >>> 3) + (y >>> 3)) (7 - (y &&& 7))
        else o)
      (fun (s : Buf × Buf) y =>
        (s.1,
         if ((getByte s.1 (y * (w >>> 3) + (x >>> 3)) >>>
               (7 - (x &&& 7))) &&& 1) ≠ 0
         then setBitOr s.2 (x * (h >>> 3) + (y >>> 3)) (7 - (y &&& 7))
         else s.2))
      (fun s y => rfl) (List.range h) s)
    (List.range w) (input, List.replicate (w * (h >>> 3)) 0)

/-- `transpose1BitGeneric` with the input threaded through the loop state. -/
def transpose1BitGenericST (input : Buf) (w h : Nat) : Buf × Buf :=
  (List.range w).foldl
    (fun s x => (List.range h).foldl
      (fun (s : Buf × Buf) y =>
        (s.1,
         if y * ((w + 7) / 8) + (x >>> 3) < s.1.length then
           if ((getByte s.1 (y * ((w + 7) / 8) + (x >>> 3)) >>>
                 (7 - (x &&& 7))) &&& 1) ≠ 0
           then setBitOr s.2 (x * ((h + 7) / 8) + (y >>> 3)) (7 - (y &&& 7))
           else s.2
         else s.2)) s)
    (input, List.replicate (w * ((h + 7) / 8)) 0)

theorem transpose1BitGenericST_spec (input : Buf) (w h : Nat) :
    transpose1BitGenericST input w h = (input, transpose1BitGeneric input w h) :=
  foldl_inp_const
    (fun inp o x => (List.range h).foldl
      (fun o y =>
        if y * ((w + 7) / 8) + (x >>> 3) < inp.length then
          if ((getByte inp (y * ((w + 7) / 8) + (x >>> 3)) >>>
                (7 - (x &&& 7))) &&& 1) ≠ 0
          then setBitOr o (x * ((h + 7) / 8) + (y >>> 3)) (7 - (y &&& 7))
          else o
        else o) o)
    (fun s x => (List.range h).foldl
      (fun (s : Buf × Buf) y =>
        (s.1,
         if y * ((w + 7) / 8) + (x >>> 3) < s.1.length then
           if ((getByte s.1 (y * ((w + 7) / 8) + (x >>> 3)) >>>
                 (7 - (x &&& 7))) &&& 1) ≠ 0
           then setBitOr s.2 (x * ((h + 7) / 8) + (y >>> 3)) (7 - (y &&& 7))
           else s.2
         else s.2)) s)
    (fun s x => foldl_inp_const
      (fun inp o y =>
        if y * ((w + 7) / 8) + (x >>> 3) < inp.length then
          if ((getByte inp (y * ((w + 7) / 8) + (x >>> 3)) >>>
                (7 - (x &&& 7))) &&& 1) ≠ 0
          then setBitOr o (x * ((h + 7) / 8) + (y >>> 3)) (7 - (y &&& 7))
          else o
        else o)
      (fun (s : Buf × Buf) y =>
        (s.1,
         if y * ((w + 7) / 8) + (x >>> 3) < s.1.length then
           if ((getByte s.1 (y * ((w + 7) / 8) + (x >>> 3)) >>>
                 (7 - (x &&& 7))) &&& 1) ≠ 0
           then setBitOr s.2 (x * ((h + 7) / 8) + (y >>> 3)) (7 - (y &&& 7))
           else s.2
         else s.2))
      (fun s y => rfl) (List.range h) s)
    (List.range w) (input, List.replicate (w * ((h + 7) / 8)) 0)

/-- `transpose1BitPacked` with the input threaded through the loop state;
the second component is the (output buffer, bit cursor) pair of the source. -/
def transpose1BitPackedST (input : Buf) (w h : Nat) : Buf × (Buf × Nat) :=
  (List.range w).foldl
    (fun s x => (List.range h).foldl
      (fun (s : Buf × (Buf × Nat)) y =>
        (s.1,
         (if y * ((w + 7) / 8) + (x >>> 3) < s.1.length then
            if ((getByte s.1 (y * ((w + 7) / 8) + (x >>> 3)) >>>
                  (7 - (x &&& 7))) &&& 1) ≠ 0 then
              setBitOr s.2.1 (s.2.2 >>> 3) (7 - (s.2.2 &&& 7))
            else s.2.1
          else s.2.1, s.2.2 + 1))) s)
    (input, (List.replicate ((w * h + 7) / 8) 0, 0))

theorem transpose1BitPackedST_spec (input : Buf) (w h : Nat) :
    (transpose1BitPackedST input w h).1 = input ∧
    (transpose1BitPackedST input w h).2.1 = transpose1BitPacked input w h := by
  have h2 : transpose1BitPackedST input w h =
      (input,
        (List.range w).foldl
          (fun (st : Buf × Nat) x => (List.range h).foldl
            (fun (st : Buf × Nat) y =>
              (if y * ((w + 7) / 8) + (x >>> 3) < input.length then
                 if ((getByte input (y * ((w + 7) / 8) + (x >>> 3)) >>>
                       (7 - (x &&& 7))) &&& 1) ≠ 0 then
                   setBitOr st.1 (st.2 >>> 3) (7 - (st.2 &&& 7))
                 else st.1
               else st.1, st.2 + 1)) st)
          (List.replicate ((w * h + 7) / 8) 0, 0)) :=
    foldl_inp_const
      (fun inp st x => (List.range h).foldl
        (fun (st : Buf × Nat) y =>
          (if y * ((w + 7) / 8) + (x >>> 3) < inp.length then
             if ((getByte inp (y * ((w + 7) / 8) + (x >>> 3)) >>>
                   (7 - (x &&& 7))) &&& 1) ≠ 0 then
               setBitOr st.1 (st.2 >>> 3) (7 - (st.2 &&& 7))
             else st.1
           else st.1, st.2 + 1)) st)
      (fun s x => (List.range h).foldl
        (fun (s : Buf × (Buf × Nat)) y =>
          (s.1,
           (if y * ((w + 7) / 8) + (x >>> 3) < s.1.length then
              if ((getByte s.1 (y * ((w + 7) / 8) + (x >>> 3)) >>>
                    (7 - (x &&& 7))) &&& 1) ≠ 0 then
                setBitOr s.2.1 (s.2.2 >>> 3) (7 - (s.2.2 &&& 7))
              else s.2.1
            else s.2.1, s.2.2 + 1))) s)
      (fun s x => foldl_inp_const
        (fun inp st y =>
          (if y * ((w + 7) / 8) + (x >>> 3) < inp.length then
             if ((getByte inp (y * ((w + 7) / 8) + (x >>> 3)) >>>
                   (7 - (x &&& 7))) &&& 1) ≠ 0 then
               setBitOr st.1 (st.2 >>> 3) (7 - (st.2 &&& 7))
             else st.1
           else st.1, st.2 + 1))
        (fun (s : Buf × (Buf × Nat)) y =>
          (s.1,
           (if y * ((w + 7) / 8) + (x >>> 3) < s.1.length then
              if ((getByte s.1 (y * ((w + 7) / 8) + (x >>> 3)) >>>
                    (7 - (x &&& 7))) &&& 1) ≠ 0 then
                setBitOr s.2.1 (s.2.2 >>> 3) (7 - (s.2.2 &&& 7))
              else s.2.1
            else s.2.1, s.2.2 + 1)))
        (fun s y => rfl) (List.range h) s)
      (List.range w) (input, (List.replicate ((w * h + 7) / 8) 0, 0))
  exact ⟨by rw [h2], by rw [h2]; rfl⟩

/-- `transpose8Bit` with the input threaded through the loop state. -/
def transpose8BitST (input : Buf) (w h : Nat) : Buf × Buf :=
  (List.range w).foldl
    (fun s x => (List.range h).foldl
      (fun (s : Buf × Buf) y =>
        (s.1, setByte s.2 (x * h + y) (getByte s.1 (y * w + x)))) s)
    (input, List.replicate (w * h) 0)

theorem transpose8BitST_spec (input : Buf) (w h : Nat) :
    transpose8BitST input w h = (input, transpose8Bit input w h) :=
  foldl_inp_const
    (fun inp o x => (List.range h).foldl
      (fun o y => setByte o (x * h + y) (getByte inp (y * w + x))) o)
    (fun s x => (List.range h).foldl
      (fun (s : Buf × Buf) y =>
        (s.1, setByte s.2 (x * h + y) (getByte s.1 (y * w + x)))) s)
    (fun s x => foldl_inp_const
      (fun inp o y => setByte o (x * h + y) (getByte inp (y * w + x)))
      (fun (s : Buf × Buf) y =>
        (s.1, setByte s.2 (x * h + y) (getByte s.1 (y * w + x))))
      (fun s y => rfl) (List.range h) s)
    (List.range w) (input, List.replicate (w * h) 0)

/-- The dispatcher in state-passing style: on success it returns the final
input buffer paired with the returned output buffer. -/
def transposeST (input : Buf) (width height : Nat)
    (options : TransposeOptions) : Except String (Buf × Buf) :=
  let bpp := effectiveBpp options
  let packed := effectivePacked options
  if bpp = 1 then
    if packed then
      Except.ok ((transpose1BitPackedST input width height).1,
        (transpose1BitPackedST input width height).2.1)
    else if width % 8 = 0 ∧ height % 8 = 0 then
      Except.ok (transpose1BitAlignedST input width height)
    else
      Except.ok (transpose1BitGenericST input width height)
  else if bpp = 8 then
    Except.ok (transpose8BitST input width height)
  else
    Except.error ("Unsupported bpp: " ++ toString bpp ++
      ". Only 1 and 8 are currently supported.")

/-- C9: For every call and every variant, the input buffer is byte-for-byte
unchanged after the call and the only product is the freshly allocated output
buffer: the state-passing embedding (whose loops read the input through the
state, as the source does, and assign only to the output) returns exactly the
original input paired with the pure `transpose` result.  The output is built
from a fresh zero-filled allocation (`Buffer.alloc`), never from the input
buffer. -/
theorem claim_C9 (input : Buf) (w h : Nat) (options : TransposeOptions) :
    transposeST input w h options =
      (transpose input w h options).map (fun out => (input, out)) := by
  by_cases hb1 : effectiveBpp options = 1
  · by_cases hp : effectivePacked options = true
    · obtain ⟨hA, hB⟩ := transpose1BitPackedST_spec input w h
      simp [transposeST, transpose, hb1, hp, hA, hB, Except.map]
    · by_cases hal : w % 8 = 0 ∧ h % 8 = 0
      · simp [transposeST, transpose, hb1, hp, hal,
          transpose1BitAlignedST_spec, Except.map]
      · simp [transposeST, transpose, hb1, hp, hal,
          transpose1BitGenericST_spec, Except.map]
  · by_cases hb8 : effectiveBpp options = 8
    · simp [transposeST, transpose, hb1, hb8, transpose8BitST_spec, Except.map]
    · simp [transposeST, transpose, hb1, hb8, Except.map]

end BufferTranspose
